import Mathlib

/-!
Verification of the aurora-melody-sdk music-theory and note-transform core.

The Python source is shallowly embedded: beat positions and durations are
modelled as exact rationals (`ℚ`), MIDI integers as `ℤ` (Python `%` with a
positive modulus agrees with `Int.emod`, and Python `//` with a positive
divisor agrees with `Int.ediv`), strings as `List Char`, and a Python call
that can raise models as an `Option` result.  Randomized draws
(`random.randint`, `random.uniform`, `random.shuffle`) are passed in as
explicit oracle arguments, since the code has no seeding contract.
-/

namespace AuroraMelody

/-! ### note.py — the MidiNote data class -/

/-- Mirror of the `MidiNote` dataclass fields (`src/aurora_melody_sdk/note.py`). -/
structure MidiNote where
  note_number : ℤ
  start_beat : ℚ
  length_beats : ℚ
  velocity : ℤ
  channel : ℤ
deriving DecidableEq

/-- Mirror of the `MidiNote` constructor together with `__post_init__`,
which clamps every field into range rather than rejecting it. -/
def MidiNote.make (note_number : ℤ) (start_beat length_beats : ℚ)
    (velocity channel : ℤ) : MidiNote :=
  { note_number := max 0 (min 127 note_number)
    start_beat := max 0 start_beat
    length_beats := max (1/100) length_beats
    velocity := max 1 (min 127 velocity)
    channel := max 1 (min 16 channel) }

/-- Mirror of the `end_beat` property: `start_beat + length_beats`. -/
def MidiNote.end_beat (n : MidiNote) : ℚ := n.start_beat + n.length_beats

/-- Mirror of `MidiNote.transpose`. -/
def MidiNote.transpose (n : MidiNote) (semitones : ℤ) : MidiNote :=
  MidiNote.make (max 0 (min 127 (n.note_number + semitones)))
    n.start_beat n.length_beats n.velocity n.channel

/-- Mirror of `MidiNote.shift`. -/
def MidiNote.shift (n : MidiNote) (beats : ℚ) : MidiNote :=
  MidiNote.make n.note_number (max 0 (n.start_beat + beats))
    n.length_beats n.velocity n.channel

/-- The documented note-event invariant: pitch in [0,127], start ≥ 0,
duration > 0, velocity in [1,127], channel in [1,16]. -/
def MidiNote.Valid (n : MidiNote) : Prop :=
  0 ≤ n.note_number ∧ n.note_number ≤ 127 ∧
  0 ≤ n.start_beat ∧ 0 < n.length_beats ∧
  1 ≤ n.velocity ∧ n.velocity ≤ 127 ∧
  1 ≤ n.channel ∧ n.channel ≤ 16

instance (n : MidiNote) : Decidable n.Valid := by
  unfold MidiNote.Valid
  exact inferInstance

/-! ### theory/notes.py — the note-name codec -/

/-- Characters Python `str.strip()` removes (the ASCII whitespace set). -/
def pyIsSpace (c : Char) : Bool :=
  c = ' ' || c = '\t' || c = '\n' || c = '\x0d' || c = '\x0b' || c = '\x0c'

/-- Mirror of Python `str.strip()`: drop whitespace from both ends. -/
def pyStrip (s : List Char) : List Char :=
  ((s.dropWhile pyIsSpace).reverse.dropWhile pyIsSpace).reverse

/-- Digit-run validity for Python `int()`: one or more digits, with single
underscores permitted between digits. -/
def digitsTail : List Char → Bool
  | [] => true
  | '_' :: c :: rest => c.isDigit && digitsTail rest
  | c :: rest => c.isDigit && digitsTail rest

/-- Whole digit run accepted by Python `int()` (after sign removal). -/
def digitsOk : List Char → Bool
  | [] => false
  | '_' :: _ => false
  | c :: rest => c.isDigit && digitsTail rest

/-- Numeric value of a digit run (underscores already removed). -/
def digitsVal (s : List Char) : ℤ :=
  s.foldl (fun acc c => acc * 10 + ((c.toNat : ℤ) - 48)) 0

/-- Mirror of Python `int(str)`: strips whitespace, accepts an optional
sign and a digit run; `none` models the `ValueError`. -/
def pyParseInt (s : List Char) : Option ℤ :=
  let t := pyStrip s
  match t with
  | '+' :: rest =>
      if digitsOk rest then some (digitsVal (rest.filter (fun c => c ≠ '_'))) else none
  | '-' :: rest =>
      if digitsOk rest then some (-(digitsVal (rest.filter (fun c => c ≠ '_')))) else none
  | rest =>
      if digitsOk rest then some (digitsVal (rest.filter (fun c => c ≠ '_'))) else none

/-- Mirror of `NoteName.NOTE_TO_PC`: letter to pitch class. -/
def NOTE_TO_PC (c : Char) : Option ℤ :=
  if c = 'C' then some 0
  else if c = 'D' then some 2
  else if c = 'E' then some 4
  else if c = 'F' then some 5
  else if c = 'G' then some 7
  else if c = 'A' then some 9
  else if c = 'B' then some 11
  else none

/-- Mirror of the accidental-parsing `while` loop in `NoteName.to_midi`:
consume leading `#`/`s` (+1) and `b`/`f` (−1) characters, returning the
accumulated modifier and the remaining characters. -/
def accLoop : List Char → ℤ → ℤ × List Char
  | [], m => (m, [])
  | c :: rest, m =>
      if c = '#' || c = 's' then accLoop rest (m + 1)
      else if c = 'b' || c = 'f' then accLoop rest (m - 1)
      else (m, c :: rest)

/-- Mirror of `NoteName.to_midi`.  `none` models the uncaught `IndexError`
raised when stripping a non-empty string leaves it empty. -/
def to_midi (note_name : List Char) (default_octave : ℤ) : Option ℤ :=
  if note_name = [] then some 60
  else
    match pyStrip note_name with
    | [] => none
    | c0 :: rest0 =>
      match NOTE_TO_PC c0.toUpper with
      | none => some 60
      | some pc =>
        let acc := accLoop rest0 0
        let pitch_class := (pc + acc.1) % 12
        let octave :=
          if acc.2 = [] then default_octave
          else (pyParseInt acc.2).getD default_octave
        some (max 0 (min 127 ((octave + 1) * 12 + pitch_class)))

/-- Mirror of `NoteName.PC_TO_NOTE_SHARP`. -/
def PC_TO_NOTE_SHARP : List (List Char) :=
  [['C'], ['C', '#'], ['D'], ['D', '#'], ['E'], ['F'], ['F', '#'],
   ['G'], ['G', '#'], ['A'], ['A', '#'], ['B']]

/-- Mirror of `NoteName.PC_TO_NOTE_FLAT`. -/
def PC_TO_NOTE_FLAT : List (List Char) :=
  [['C'], ['D', 'b'], ['D'], ['E', 'b'], ['E'], ['F'], ['G', 'b'],
   ['G'], ['A', 'b'], ['A'], ['B', 'b'], ['B']]

/-- Decimal digits of a natural number, most significant first; the fuel
argument (always sufficient at `n + 1`) keeps the recursion structural. -/
def natCharsAux : ℕ → ℕ → List Char
  | 0, _ => []
  | fuel + 1, n =>
      if n < 10 then [Char.ofNat (48 + n)]
      else natCharsAux fuel (n / 10) ++ [Char.ofNat (48 + n % 10)]

/-- Decimal digits of a natural number, most significant first. -/
def natChars (n : ℕ) : List Char := natCharsAux (n + 1) n

/-- Decimal rendering of an integer, as Python `f-string` interpolation does. -/
def intChars (n : ℤ) : List Char :=
  if n < 0 then '-' :: natChars n.natAbs else natChars n.toNat

/-- Mirror of `NoteName.from_midi`: clamp, split into octave and pitch
class, and render `name + octave`. -/
def from_midi (midi_number : ℤ) (use_flats : Bool) : List Char :=
  let m := max 0 (min 127 midi_number)
  let octave := m / 12 - 1
  let pitch_class := m % 12
  let name := (if use_flats then PC_TO_NOTE_FLAT else PC_TO_NOTE_SHARP).getD
    pitch_class.toNat []
  name ++ intChars octave

/-! ### theory/scales.py and theory/chords.py -/

namespace Scale

/-- Mirror of `Scale.MAJOR`. -/
def MAJOR : List ℤ := [0, 2, 4, 5, 7, 9, 11]

/-- Mirror of `Scale.MINOR`. -/
def MINOR : List ℤ := [0, 2, 3, 5, 7, 8, 10]

/-- Mirror of `Scale.PENTATONIC_MINOR`. -/
def PENTATONIC_MINOR : List ℤ := [0, 3, 5, 7, 10]

/-- Mirror of `Scale.get_notes`: octave-major emission order, silently
dropping out-of-range pitches. -/
def get_notes (root : ℤ) (scale : List ℤ) (octaves : ℕ) : List ℤ :=
  (List.range octaves).flatMap (fun octave =>
    scale.filterMap (fun interval =>
      let note := root + interval + octave * 12
      if 0 ≤ note ∧ note ≤ 127 then some note else none))

/-- Mirror of `Scale.is_in_scale`: membership of `(note - root) % 12` in
the interval list, compared without any reduction of the list members. -/
def is_in_scale (note root : ℤ) (scale : List ℤ) : Bool :=
  scale.contains ((note - root) % 12)

end Scale

namespace Chord

/-- Mirror of `Chord.MAJOR`. -/
def MAJOR : List ℤ := [0, 4, 7]

/-- Mirror of `Chord.MINOR`. -/
def MINOR : List ℤ := [0, 3, 7]

/-- Mirror of `Chord.MAJOR_9`. -/
def MAJOR_9 : List ℤ := [0, 4, 7, 11, 14]

/-- Mirror of `Chord.get_notes`: root plus each interval, dropping
out-of-range pitches. -/
def get_notes (root : ℤ) (chord_type : List ℤ) : List ℤ :=
  chord_type.filterMap (fun interval =>
    if 0 ≤ root + interval ∧ root + interval ≤ 127 then some (root + interval)
    else none)

/-- One pass of the inversion loop body: `notes[0] += 12` followed by
`notes = notes[1:] + [notes[0]]`. -/
def invStep : List ℤ → List ℤ
  | [] => []
  | x :: xs => xs ++ [x + 12]

/-- The inversion loop, run a fixed number of times. -/
def invLoop : ℕ → List ℤ → List ℤ
  | 0, notes => notes
  | k + 1, notes => invLoop k (invStep notes)

/-- Mirror of `Chord.get_inversion`: rotate-and-raise `inversion % len(notes)`
times.  (On an empty note list the Python code raises `ZeroDivisionError`;
there `Int.emod _ 0` makes this total but the claims assume a non-empty list.) -/
def get_inversion (root : ℤ) (chord_type : List ℤ) (inversion : ℤ) : List ℤ :=
  let notes := get_notes root chord_type
  invLoop (inversion % (notes.length : ℤ)).toNat notes

/-- Mirror of the voice-movement cost loop in `Chord.voice_lead`: paired
voices cost their absolute difference, each unpaired extra candidate voice
costs 12. -/
def movement : List ℤ → List ℤ → ℤ
  | [], _ => 0
  | _ :: cs, [] => 12 + movement cs []
  | c :: cs, p :: ps => |c - p| + movement cs ps

/-- Body of the inversion-scanning loop of `Chord.voice_lead`: compute the
candidate and its movement, and keep it only when strictly better than the
best so far (`best_movement` starts at infinity, modelled by the `none`
accumulator). -/
def vlStep (from_chord : List ℤ) (to_root : ℤ) (to_type : List ℤ)
    (acc : Option (List ℤ × ℤ)) (inv : ℕ) : Option (List ℤ × ℤ) :=
  let candidate := get_inversion to_root to_type (inv : ℤ)
  let m := movement candidate from_chord
  match acc with
  | none => some (candidate, m)
  | some (b, bm) => if m < bm then some (candidate, m) else some (b, bm)

/-- Mirror of `Chord.voice_lead`: fold the loop body over all inversion
indices, with Python's `best_notes or get_notes(...)` fallback for a falsy
(`None` or empty) result. -/
def voice_lead (from_chord : List ℤ) (to_root : ℤ) (to_type : List ℤ) : List ℤ :=
  if from_chord = [] then get_notes to_root to_type
  else
    match (List.range to_type.length).foldl (vlStep from_chord to_root to_type) none with
    | none => get_notes to_root to_type
    | some (b, _) => if b = [] then get_notes to_root to_type else b

end Chord

/-! ### utils/quantize.py -/

/-- Python's built-in `round`: nearest integer, ties to the even neighbour. -/
def pyRound (q : ℚ) : ℤ :=
  if q - (⌊q⌋ : ℚ) < 1/2 then ⌊q⌋
  else if 1/2 < q - (⌊q⌋ : ℚ) then ⌊q⌋ + 1
  else if ⌊q⌋ % 2 = 0 then ⌊q⌋ else ⌊q⌋ + 1

/-- Mirror of `quantize_beat`: snap to the grid, no-op for `resolution ≤ 0`. -/
def quantize_beat (beat resolution : ℚ) : ℚ :=
  if resolution ≤ 0 then beat else (pyRound (beat / resolution) : ℚ) * resolution

/-- Mirror of `quantize_notes`: quantize each start, and optionally each
length floored at `resolution`; every output goes through the clamping
constructor. -/
def quantize_notes (notes : List MidiNote) (resolution : ℚ)
    (quantize_length : Bool) : List MidiNote :=
  notes.map (fun note =>
    let new_start := quantize_beat note.start_beat resolution
    let new_length :=
      if quantize_length then max resolution (quantize_beat note.length_beats resolution)
      else note.length_beats
    MidiNote.make note.note_number new_start new_length note.velocity note.channel)

/-- Index-threaded body of `humanize`; the three oracles supply the values
drawn from `random.uniform` / `random.randint` for each note. -/
def humanizeGo (toff : ℕ → ℚ) (voff : ℕ → ℤ) (loff : ℕ → ℚ) :
    ℕ → List MidiNote → List MidiNote
  | _, [] => []
  | i, note :: rest =>
      MidiNote.make note.note_number
        (max 0 (note.start_beat + toff i))
        (max (1/100) (note.length_beats + loff i))
        (max 1 (min 127 (note.velocity + voff i)))
        note.channel
      :: humanizeGo toff voff loff (i + 1) rest

/-- Mirror of `humanize` with the random draws passed in as oracles. -/
def humanize (notes : List MidiNote) (toff : ℕ → ℚ) (voff : ℕ → ℤ)
    (loff : ℕ → ℚ) : List MidiNote :=
  humanizeGo toff voff loff 0 notes

/-- Strict key order used by the initial sort of `remove_overlaps`:
`(start_beat, note_number)` lexicographically. -/
def keyLt (a b : MidiNote) : Bool :=
  decide (a.start_beat < b.start_beat ∨
    (a.start_beat = b.start_beat ∧ a.note_number < b.note_number))

/-- Strict order for the final sort of `remove_overlaps`: `start_beat` only. -/
def startLt (a b : MidiNote) : Bool :=
  decide (a.start_beat < b.start_beat)

/-- Stable insertion: the new element goes after all existing elements it
is not strictly below. -/
def insertStable (lt : MidiNote → MidiNote → Bool) (x : MidiNote) :
    List MidiNote → List MidiNote
  | [] => [x]
  | y :: ys => if lt x y then x :: y :: ys else y :: insertStable lt x ys

/-- Stable sort (insertion sort), modelling Python's stable `sorted`. -/
def sortStable (lt : MidiNote → MidiNote → Bool) (l : List MidiNote) :
    List MidiNote :=
  l.foldl (fun acc x => insertStable lt x acc) []

/-- Keys in order of first occurrence, modelling the insertion order of the
`note_groups` dict in `remove_overlaps`. -/
def dedupFirst : List ℤ → List ℤ
  | [] => []
  | x :: xs => x :: dedupFirst (xs.filter (fun y => y ≠ x))
termination_by l => l.length
decreasing_by
  simp only [List.length_cons]
  exact Nat.lt_succ_of_le (List.length_filter_le _ xs)

/-- Per-group walk of `remove_overlaps`.  The accumulator holds the kept
notes of this group newest-first, so its head is Python's `prev_note`; the
"truncate" branch replaces that head, mirroring the in-place update of the
previous kept note in `result`. -/
def groupWalk (mode : String) : List MidiNote → List MidiNote → List MidiNote
  | acc, [] => acc.reverse
  | [], note :: rest => groupWalk mode [note] rest
  | prev :: accTail, note :: rest =>
      if prev.end_beat ≤ note.start_beat then
        groupWalk mode (note :: prev :: accTail) rest
      else if mode = "truncate" then
        let new_length := note.start_beat - prev.start_beat
        if 1/100 < new_length then
          groupWalk mode
            (note :: MidiNote.make prev.note_number prev.start_beat new_length
              prev.velocity prev.channel :: accTail) rest
        else
          groupWalk mode (note :: prev :: accTail) rest
      else
        groupWalk mode (prev :: accTail) rest

/-- Mirror of `remove_overlaps`: sort by `(start, pitch)`, group by pitch in
first-occurrence order, walk each group, concatenate, and re-sort by start. -/
def remove_overlaps (notes : List MidiNote) (mode : String) : List MidiNote :=
  if notes = [] then []
  else
    let sorted_notes := sortStable keyLt notes
    let result := (dedupFirst (sorted_notes.map MidiNote.note_number)).flatMap
      (fun k => groupWalk mode [] (sorted_notes.filter (fun n => n.note_number = k)))
    sortStable startLt result

/-! ### utils/generators.py -/

/-- Mirror of Python `min(range(n), key=g)`: the first index attaining the
minimum (a strictly smaller value replaces the current best). -/
def argminFirst (g : ℕ → ℤ) (n : ℕ) : ℕ :=
  (List.range n).foldl (fun best i => if g i < g best then i else best) 0

/-- Scale-constrained branch of the `random_walk` loop: clamp the walked
index into the scale-note list and emit a clamped note. -/
def rwScaleGo (scale_notes : List ℤ) (stepO velO : ℕ → ℤ)
    (start_beat note_length : ℚ) : ℕ → ℕ → ℕ → List MidiNote
  | 0, _, _ => []
  | rem + 1, i, idx =>
      let idx2 := (max 0 (min ((scale_notes.length : ℤ) - 1)
        ((idx : ℤ) + stepO i))).toNat
      MidiNote.make (scale_notes.getD idx2 0)
        (start_beat + (i : ℚ) * note_length) (note_length * (9/10)) (velO i) 1
      :: rwScaleGo scale_notes stepO velO start_beat note_length rem (i + 1) idx2

/-- Chromatic branch of the `random_walk` loop: clamp the walked pitch to
[24,108] and emit. -/
def rwChromGo (stepO velO : ℕ → ℤ) (start_beat note_length : ℚ) :
    ℕ → ℕ → ℤ → List MidiNote
  | 0, _, _ => []
  | rem + 1, i, current =>
      let c2 := max 24 (min 108 (current + stepO i))
      MidiNote.make c2 (start_beat + (i : ℚ) * note_length)
        (note_length * (9/10)) (velO i) 1
      :: rwChromGo stepO velO start_beat note_length rem (i + 1) c2

/-- Mirror of `random_walk` with the random draws as oracles; an empty
`scale` list models Python's falsy `None`/`[]` scale argument. -/
def random_walk (stepO velO : ℕ → ℤ) (start_note : ℤ) (num_notes : ℕ)
    (scale : List ℤ) (root : ℤ) (start_beat note_length : ℚ) : List MidiNote :=
  if scale = [] then
    rwChromGo stepO velO start_beat note_length num_notes 0 start_note
  else
    let filtered := (Scale.get_notes (root % 12) scale 10).filter
      (fun n => decide (24 ≤ n) && decide (n ≤ 108))
    let scale_notes := if filtered = [] then [start_note] else filtered
    let current_idx := argminFirst
      (fun i => |scale_notes.getD i 0 - start_note|) scale_notes.length
    rwScaleGo scale_notes stepO velO start_beat note_length num_notes 0 current_idx

/-- Mirror of the pattern-sequence construction in `arpeggiate`; the
`shuffle` oracle stands for `random.shuffle` in the "random" branch. -/
def buildSequence (chord_notes : List ℤ) (pattern : String)
    (shuffle : List ℤ → List ℤ) : List ℤ :=
  let sequence :=
    if pattern = "down" then chord_notes.reverse
    else if pattern = "updown" then
      chord_notes ++
        (if chord_notes.length > 2 then (chord_notes.drop 1).dropLast else []).reverse
    else if pattern = "downup" then
      (if chord_notes.length > 2 then
        chord_notes.reverse ++ (chord_notes.drop 1).dropLast
      else chord_notes.reverse)
    else if pattern = "random" then shuffle chord_notes
    else chord_notes
  if sequence = [] then chord_notes else sequence

/-- Fuelled operational semantics of the `while current_beat < start_beat +
total_beats` loop of `arpeggiate`: one fuel unit per iteration, `none` when
the fuel runs out before the guard fails (so divergence is exactly
`∀ fuel, none`). -/
def arpLoopFuel (seq : List ℤ) (velO : ℕ → ℤ) (stop note_length : ℚ) :
    ℕ → ℚ → ℕ → List MidiNote → Option (List MidiNote)
  | 0, current_beat, _, acc =>
      if current_beat < stop then none else some acc.reverse
  | fuel + 1, current_beat, idx, acc =>
      if current_beat < stop then
        let note_number := seq.getD (idx % seq.length) 0
        let velocity := velO idx
        let velocity := if idx % seq.length = 0 then min 127 (velocity + 10) else velocity
        let actual_length := min note_length (stop - current_beat)
        arpLoopFuel seq velO stop note_length fuel (current_beat + note_length)
          (idx + 1)
          (MidiNote.make note_number current_beat (actual_length * (9/10)) velocity 1
            :: acc)
      else some acc.reverse

/-- Mirror of `arpeggiate` under the fuelled loop semantics. -/
def arpeggiateFuel (chord_notes : List ℤ) (pattern : String)
    (start_beat total_beats note_length : ℚ) (velO : ℕ → ℤ)
    (shuffle : List ℤ → List ℤ) (fuel : ℕ) : Option (List MidiNote) :=
  if chord_notes = [] then some []
  else arpLoopFuel (buildSequence chord_notes pattern shuffle) velO
    (start_beat + total_beats) note_length fuel start_beat 0 []

/-! ### Spec-side definitions used by refinement statements -/

/-- Modelled from the spec: one step of the inversion construction, the
operation "add 12 to the first element, then rotate it to the end". -/
def specRotateRaise : List ℤ → List ℤ
  | [] => []
  | x :: xs => xs ++ [x + 12]

/-- Modelled from the claim's per-group walk in "truncate" mode, with the
amended epsilon branch: each note is compared to the previous kept note;
no overlap (`prev.end ≤ current.start`) keeps the current note; a
truncated duration above the 0.01 epsilon shortens the previous kept note
to `current.start - previous.start`; at or below the epsilon the previous
kept note is left in the output unchanged (not dropped).  In every branch
the current note is kept and becomes the new previous. -/
def specTruncWalk : MidiNote → List MidiNote → List MidiNote
  | prev, [] => [prev]
  | prev, note :: rest =>
      if prev.end_beat ≤ note.start_beat then prev :: specTruncWalk note rest
      else if 1/100 < note.start_beat - prev.start_beat then
        MidiNote.make prev.note_number prev.start_beat
          (note.start_beat - prev.start_beat) prev.velocity prev.channel
          :: specTruncWalk note rest
      else prev :: specTruncWalk note rest

/-- The claim's walk applied to one pitch group. -/
def specTrunc : List MidiNote → List MidiNote
  | [] => []
  | g :: gs => specTruncWalk g gs

/-- Modelled from the claim: sort by start (and pitch), walk each
identical-pitch group with `specTruncWalk`, and re-sort the union of the
groups by start position. -/
def spec_remove_truncate (notes : List MidiNote) : List MidiNote :=
  let sorted := sortStable keyLt notes
  sortStable startLt
    ((dedupFirst (sorted.map MidiNote.note_number)).flatMap
      (fun k => specTrunc (sorted.filter (fun n => n.note_number = k))))

/-! ### Helper lemmas -/

theorem invLoop_eq_iterate (n : ℕ) (l : List ℤ) :
    Chord.invLoop n l = specRotateRaise^[n] l := by
  induction n generalizing l with
  | zero => rfl
  | succ m ih =>
      rw [Chord.invLoop, Function.iterate_succ_apply, ih]
      rfl

theorem invStep_length (l : List ℤ) : (Chord.invStep l).length = l.length := by
  cases l with
  | nil => rfl
  | cons x xs => simp [Chord.invStep]

theorem invLoop_length (n : ℕ) (l : List ℤ) :
    (Chord.invLoop n l).length = l.length := by
  induction n generalizing l with
  | zero => rfl
  | succ m ih => rw [Chord.invLoop, ih, invStep_length]

theorem get_inversion_length (root : ℤ) (t : List ℤ) (k : ℤ) :
    (Chord.get_inversion root t k).length = (Chord.get_notes root t).length := by
  unfold Chord.get_inversion
  exact invLoop_length _ _

theorem vlFold_argmin (fc : List ℤ) (r : ℤ) (t : List ℤ) :
    ∀ n : ℕ, 0 < n →
    ∃ i : ℕ, i < n ∧
      (List.range n).foldl (Chord.vlStep fc r t) none =
        some (Chord.get_inversion r t (i : ℤ),
          Chord.movement (Chord.get_inversion r t (i : ℤ)) fc) ∧
      (∀ j : ℕ, j < n →
        Chord.movement (Chord.get_inversion r t (i : ℤ)) fc ≤
        Chord.movement (Chord.get_inversion r t (j : ℤ)) fc) ∧
      (∀ j : ℕ, j < i →
        Chord.movement (Chord.get_inversion r t (i : ℤ)) fc <
        Chord.movement (Chord.get_inversion r t (j : ℤ)) fc) := by
  intro n
  induction n with
  | zero => omega
  | succ m ih =>
      intro _
      rw [List.range_succ, List.foldl_append]
      rcases Nat.eq_zero_or_pos m with hm | hm
      · subst hm
        refine ⟨0, Nat.zero_lt_one, ?_, ?_, ?_⟩
        · rfl
        · intro j hj
          interval_cases j
          exact le_refl _
        · intro j hj
          omega
      · obtain ⟨i, hi, heq, hle, hlt⟩ := ih hm
        rw [heq]
        by_cases hcmp :
          Chord.movement (Chord.get_inversion r t (m : ℤ)) fc <
            Chord.movement (Chord.get_inversion r t (i : ℤ)) fc
        · refine ⟨m, Nat.lt_succ_self m, ?_, ?_, ?_⟩
          · simp [Chord.vlStep, hcmp]
          · intro j hj
            rcases Nat.lt_succ_iff_lt_or_eq.mp hj with hj | hj
            · exact le_of_lt (lt_of_lt_of_le hcmp (hle j hj))
            · subst hj; exact le_refl _
          · intro j hj
            exact lt_of_lt_of_le hcmp (hle j hj)
        · refine ⟨i, Nat.lt_succ_of_lt hi, ?_, ?_, ?_⟩
          · simp [Chord.vlStep, hcmp]
          · intro j hj
            rcases Nat.lt_succ_iff_lt_or_eq.mp hj with hj | hj
            · exact hle j hj
            · subst hj; exact le_of_not_lt hcmp
          · exact hlt

theorem groupWalk_trunc_spec :
    ∀ (l : List MidiNote) (p : MidiNote) (accT : List MidiNote),
      groupWalk "truncate" (p :: accT) l = accT.reverse ++ specTruncWalk p l := by
  intro l
  induction l with
  | nil =>
      intro p accT
      simp [groupWalk, specTruncWalk]
  | cons note rest ih =>
      intro p accT
      simp only [groupWalk, specTruncWalk]
      by_cases h1 : p.end_beat ≤ note.start_beat
      · rw [if_pos h1, if_pos h1, ih]
        simp
      · rw [if_neg h1, if_neg h1]
        simp only [if_true]
        by_cases h2 : (1 : ℚ)/100 < note.start_beat - p.start_beat
        · rw [if_pos h2, if_pos h2, ih]
          simp
        · rw [if_neg h2, if_neg h2, ih]
          simp

theorem groupWalk_trunc_eq_specTrunc (l : List MidiNote) :
    groupWalk "truncate" [] l = specTrunc l := by
  cases l with
  | nil => rfl
  | cons g gs =>
      rw [groupWalk, groupWalk_trunc_spec]
      rfl

theorem pyRound_intCast (n : ℤ) : pyRound (n : ℚ) = n := by
  unfold pyRound
  rw [Int.floor_intCast]
  norm_num

theorem pyRound_ge_floor (q : ℚ) : ⌊q⌋ ≤ pyRound q := by
  unfold pyRound
  split
  · omega
  · split
    · omega
    · split <;> omega

theorem pyRound_le_floor_add_one (q : ℚ) : pyRound q ≤ ⌊q⌋ + 1 := by
  unfold pyRound
  split
  · omega
  · split
    · omega
    · split <;> omega

theorem pyRound_mono {x y : ℚ} (h : x ≤ y) : pyRound x ≤ pyRound y := by
  by_cases hf : ⌊x⌋ = ⌊y⌋
  · have hfr : x - (⌊y⌋ : ℚ) ≤ y - (⌊y⌋ : ℚ) := by linarith
    unfold pyRound
    simp only [hf]
    split_ifs <;> first | omega | linarith
  · have hlt : ⌊x⌋ < ⌊y⌋ := lt_of_le_of_ne (Int.floor_mono h) hf
    have h1 := pyRound_le_floor_add_one x
    have h2 := pyRound_ge_floor y
    omega

theorem pyRound_nonneg {q : ℚ} (h : 0 ≤ q) : 0 ≤ pyRound q :=
  le_trans (Int.floor_nonneg.mpr h) (pyRound_ge_floor q)

theorem quantize_beat_pos (beat r : ℚ) (hr : 0 < r) :
    quantize_beat beat r = (pyRound (beat / r) : ℚ) * r := by
  unfold quantize_beat
  rw [if_neg (not_le.mpr hr)]

theorem quantize_beat_intMul (m : ℤ) (r : ℚ) (hr : 0 < r) :
    quantize_beat ((m : ℚ) * r) r = (m : ℚ) * r := by
  rw [quantize_beat_pos _ _ hr, mul_div_cancel_right₀ _ (ne_of_gt hr),
    pyRound_intCast]

theorem quantize_start_idem (s r : ℚ) (hr : 0 < r) :
    max 0 (quantize_beat (max 0 (quantize_beat s r)) r) =
      max 0 (quantize_beat s r) := by
  rcases le_total 0 (quantize_beat s r) with hq | hq
  · rw [max_eq_right hq]
    rw [quantize_beat_pos s r hr, quantize_beat_intMul _ _ hr]
    rw [quantize_beat_pos s r hr] at hq
    exact max_eq_right hq
  · rw [max_eq_left hq]
    have h0 : quantize_beat 0 r = 0 := by
      have := quantize_beat_intMul 0 r hr
      simpa using this
    rw [h0]
    simp

theorem max_res_int (n : ℤ) (r : ℚ) (hr : 0 < r) :
    max r ((n : ℚ) * r) = ((max 1 n : ℤ) : ℚ) * r := by
  rcases le_total 1 n with h | h
  · rw [max_eq_right h]
    have hc : (1 : ℚ) ≤ (n : ℚ) := by exact_mod_cast h
    have : r ≤ (n : ℚ) * r := by nlinarith
    rw [max_eq_right this]
  · rw [max_eq_left h]
    have hc : (n : ℚ) ≤ 1 := by exact_mod_cast h
    have : (n : ℚ) * r ≤ r := by nlinarith
    rw [max_eq_left this]
    simp

theorem quantize_len_idem (L r : ℚ) (hr : 0 < r) (hL : 1/100 ≤ L) :
    max (1/100) (max r (quantize_beat (max (1/100)
        (max r (quantize_beat L r))) r)) =
      max (1/100) (max r (quantize_beat L r)) := by
  rw [quantize_beat_pos L r hr]
  rw [max_res_int _ _ hr]
  set m : ℤ := max 1 (pyRound (L / r)) with hm
  rcases le_total (1/100 : ℚ) ((m : ℚ) * r) with hA | hB
  · rw [max_eq_right hA, quantize_beat_intMul _ _ hr, max_res_int _ _ hr]
    have hmm : max 1 m = m := max_eq_right (le_max_left 1 _)
    rw [hmm, max_eq_right hA]
  · rw [max_eq_left hB]
    have h1m : (1 : ℚ) ≤ (m : ℚ) := by
      exact_mod_cast le_max_left 1 (pyRound (L / r))
    have hrm : r ≤ (m : ℚ) * r := by nlinarith
    have hmono : pyRound (1/100 / r) ≤ pyRound (L / r) :=
      pyRound_mono ((div_le_div_iff_of_pos_right hr).mpr hL)
    have hmono2 : pyRound (1/100 / r) ≤ m :=
      le_trans hmono (le_max_right 1 _)
    have hq : quantize_beat (1/100) r ≤ (m : ℚ) * r := by
      rw [quantize_beat_pos _ _ hr]
      have : ((pyRound (1/100 / r) : ℤ) : ℚ) ≤ (m : ℚ) := by
        exact_mod_cast hmono2
      nlinarith
    have hmax : max r (quantize_beat (1/100) r) ≤ 1/100 :=
      max_le (le_trans hrm hB) (le_trans hq hB)
    exact max_eq_left hmax

theorem arpLoop_stuck (seq : List ℤ) (velO : ℕ → ℤ) (stop : ℚ) :
    ∀ (n : ℕ) (current : ℚ) (idx : ℕ) (acc : List MidiNote),
      current < stop → arpLoopFuel seq velO stop 0 n current idx acc = none := by
  intro n
  induction n with
  | zero =>
      intro current idx acc h
      rw [arpLoopFuel, if_pos h]
  | succ m ih =>
      intro current idx acc h
      rw [arpLoopFuel, if_pos h]
      dsimp only
      rw [add_zero]
      exact ih current (idx + 1) _ h

theorem arpLoop_term (seq : List ℤ) (velO : ℕ → ℤ) (stop nl : ℚ) (hnl : 0 < nl) :
    ∀ (k : ℕ) (current : ℚ) (idx : ℕ) (acc : List MidiNote),
      stop - current ≤ (k : ℚ) * nl →
      ∃ res, arpLoopFuel seq velO stop nl k current idx acc = some res := by
  intro k
  induction k with
  | zero =>
      intro current idx acc hk
      have hstop : ¬ current < stop := by
        simp only [Nat.cast_zero, zero_mul] at hk
        linarith
      rw [arpLoopFuel, if_neg hstop]
      exact ⟨acc.reverse, rfl⟩
  | succ m ih =>
      intro current idx acc hk
      by_cases h : current < stop
      · rw [arpLoopFuel, if_pos h]
        dsimp only
        apply ih
        push_cast at hk ⊢
        linarith
      · rw [arpLoopFuel, if_neg h]
        exact ⟨acc.reverse, rfl⟩

theorem arpLoop_window (seq : List ℤ) (velO : ℕ → ℤ) (stop nl start : ℚ)
    (hstart : 0 ≤ start) (hnl : 0 < nl) :
    ∀ (fuel : ℕ) (current : ℚ) (idx : ℕ) (acc res : List MidiNote),
      start ≤ current →
      (∀ a ∈ acc, start ≤ a.start_beat ∧ a.start_beat < stop ∧
        a.end_beat < stop + 1/100 ∧ a.start_beat ≤ current) →
      acc.Chain' (fun a b => b.start_beat ≤ a.start_beat) →
      arpLoopFuel seq velO stop nl fuel current idx acc = some res →
      (res.Chain' (fun a b => a.start_beat ≤ b.start_beat) ∧
       ∀ m ∈ res, start ≤ m.start_beat ∧ m.start_beat < stop ∧
         m.end_beat < stop + 1/100) := by
  intro fuel
  induction fuel with
  | zero =>
      intro current idx acc res hcur hacc hchain hrun
      rw [arpLoopFuel] at hrun
      by_cases h : current < stop
      · rw [if_pos h] at hrun
        exact absurd hrun (by simp)
      · rw [if_neg h] at hrun
        obtain rfl := Option.some.inj hrun
        constructor
        · rw [List.chain'_reverse]
          exact hchain
        · intro m hm
          rw [List.mem_reverse] at hm
          exact ⟨(hacc m hm).1, (hacc m hm).2.1, (hacc m hm).2.2.1⟩
  | succ f ih =>
      intro current idx acc res hcur hacc hchain hrun
      rw [arpLoopFuel] at hrun
      by_cases h : current < stop
      · rw [if_pos h] at hrun
        dsimp only at hrun
        have hcur0 : (0 : ℚ) ≤ current := le_trans hstart hcur
        set note := MidiNote.make (seq.getD (idx % seq.length) 0) current
          ((min nl (stop - current)) * (9/10))
          (if idx % seq.length = 0 then min 127 (velO idx + 10) else velO idx) 1
          with hnote
        have hnstart : note.start_beat = current := by
          rw [hnote]
          exact max_eq_right hcur0
        have hnprops : start ≤ note.start_beat ∧ note.start_beat < stop ∧
            note.end_beat < stop + 1/100 ∧ note.start_beat ≤ current + nl := by
          rw [hnstart]
          refine ⟨hcur, h, ?_, by linarith⟩
          have hend : note.end_beat =
              current + max (1/100) ((min nl (stop - current)) * (9/10)) := by
            rw [MidiNote.end_beat, hnstart, hnote]
            rfl
          rw [hend]
          rcases le_total ((min nl (stop - current)) * (9/10)) (1/100) with hc | hc
          · rw [max_eq_left hc]
            linarith
          · rw [max_eq_right hc]
            have h1 : min nl (stop - current) ≤ stop - current := min_le_right _ _
            have h2 : 0 < stop - current := by linarith
            nlinarith
        apply ih (current + nl) (idx + 1) (note :: acc) res (by linarith)
        · intro a ha
          rcases List.mem_cons.mp ha with rfl | ha
          · exact hnprops
          · obtain ⟨p1, p2, p3, p4⟩ := hacc a ha
            exact ⟨p1, p2, p3, by linarith⟩
        · rw [List.chain'_cons']
          refine ⟨?_, hchain⟩
          intro b hb
          have hbacc : b ∈ acc := by
            cases acc with
            | nil => simp at hb
            | cons x xs =>
                simp at hb
                subst hb
                exact List.mem_cons_self x xs
          rw [hnstart]
          exact (hacc b hbacc).2.2.2
        · exact hrun
      · rw [if_neg h] at hrun
        obtain rfl := Option.some.inj hrun
        constructor
        · rw [List.chain'_reverse]
          exact hchain
        · intro m hm
          rw [List.mem_reverse] at hm
          exact ⟨(hacc m hm).1, (hacc m hm).2.1, (hacc m hm).2.2.1⟩

theorem make_valid (nn : ℤ) (sb lb : ℚ) (v c : ℤ) :
    (MidiNote.make nn sb lb v c).Valid := by
  unfold MidiNote.Valid MidiNote.make
  refine ⟨le_max_left 0 _, ?_, le_max_left 0 _, ?_, le_max_left 1 _, ?_,
    le_max_left 1 _, ?_⟩
  · exact max_le (by norm_num) (min_le_left _ _)
  · exact lt_of_lt_of_le (by norm_num) (le_max_left (1/100) lb)
  · exact max_le (by norm_num) (min_le_left _ _)
  · exact max_le (by norm_num) (min_le_left _ _)

theorem mem_insertStable (lt : MidiNote → MidiNote → Bool) (x a : MidiNote) :
    ∀ l, a ∈ insertStable lt x l ↔ a = x ∨ a ∈ l := by
  intro l
  induction l with
  | nil => simp [insertStable]
  | cons y ys ih =>
      rw [insertStable]
      by_cases h : lt x y = true
      · rw [if_pos h]
        simp [List.mem_cons]
      · rw [if_neg h]
        simp [List.mem_cons, ih]
        tauto

theorem mem_sortStable_aux (lt : MidiNote → MidiNote → Bool) (a : MidiNote) :
    ∀ (l acc : List MidiNote),
      a ∈ l.foldl (fun acc x => insertStable lt x acc) acc ↔ a ∈ acc ∨ a ∈ l := by
  intro l
  induction l with
  | nil => simp
  | cons x xs ih =>
      intro acc
      rw [List.foldl_cons, ih, mem_insertStable]
      simp [List.mem_cons]
      tauto

theorem mem_sortStable (lt : MidiNote → MidiNote → Bool) (a : MidiNote)
    (l : List MidiNote) : a ∈ sortStable lt l ↔ a ∈ l := by
  unfold sortStable
  rw [mem_sortStable_aux]
  simp

theorem groupWalk_valid (mode : String) :
    ∀ (l acc : List MidiNote), (∀ a ∈ acc, a.Valid) → (∀ a ∈ l, a.Valid) →
      ∀ m ∈ groupWalk mode acc l, m.Valid := by
  intro l
  induction l with
  | nil =>
      intro acc hacc _ m hm
      simp only [groupWalk] at hm
      exact hacc m (by rwa [List.mem_reverse] at hm)
  | cons note rest ih =>
      intro acc hacc hl m hm
      have hnote : note.Valid := hl note (List.mem_cons_self _ _)
      have hrest : ∀ a ∈ rest, a.Valid := fun a ha => hl a (List.mem_cons_of_mem _ ha)
      cases acc with
      | nil =>
          simp only [groupWalk] at hm
          refine ih [note] ?_ hrest m hm
          intro a ha
          rw [List.mem_singleton] at ha
          subst ha
          exact hnote
      | cons prev accT =>
          have hprev : prev.Valid := hacc prev (List.mem_cons_self _ _)
          have haccT : ∀ a ∈ accT, a.Valid :=
            fun a ha => hacc a (List.mem_cons_of_mem _ ha)
          simp only [groupWalk] at hm
          by_cases h1 : prev.end_beat ≤ note.start_beat
          · rw [if_pos h1] at hm
            refine ih (note :: prev :: accT) ?_ hrest m hm
            intro a ha
            rcases List.mem_cons.mp ha with rfl | ha
            · exact hnote
            · exact hacc a ha
          · rw [if_neg h1] at hm
            by_cases hmode : mode = "truncate"
            · rw [if_pos hmode] at hm
              by_cases h2 : (1 : ℚ)/100 < note.start_beat - prev.start_beat
              · rw [if_pos h2] at hm
                refine ih _ ?_ hrest m hm
                intro a ha
                rcases List.mem_cons.mp ha with rfl | ha
                · exact hnote
                · rcases List.mem_cons.mp ha with rfl | ha
                  · exact make_valid _ _ _ _ _
                  · exact haccT a ha
              · rw [if_neg h2] at hm
                refine ih (note :: prev :: accT) ?_ hrest m hm
                intro a ha
                rcases List.mem_cons.mp ha with rfl | ha
                · exact hnote
                · exact hacc a ha
            · rw [if_neg hmode] at hm
              exact ih (prev :: accT) hacc hrest m hm

theorem humanizeGo_valid (toff : ℕ → ℚ) (voff : ℕ → ℤ) (loff : ℕ → ℚ) :
    ∀ (l : List MidiNote) (i : ℕ), ∀ m ∈ humanizeGo toff voff loff i l, m.Valid := by
  intro l
  induction l with
  | nil =>
      intro i m hm
      simp [humanizeGo] at hm
  | cons x xs ih =>
      intro i m hm
      rw [humanizeGo] at hm
      rcases List.mem_cons.mp hm with rfl | hm
      · exact make_valid _ _ _ _ _
      · exact ih (i + 1) m hm

theorem rwScaleGo_valid (scale_notes : List ℤ) (stepO velO : ℕ → ℤ)
    (sb nl : ℚ) : ∀ (rem i idx : ℕ),
      ∀ m ∈ rwScaleGo scale_notes stepO velO sb nl rem i idx, m.Valid := by
  intro rem
  induction rem with
  | zero =>
      intro i idx m hm
      simp [rwScaleGo] at hm
  | succ r ih =>
      intro i idx m hm
      rw [rwScaleGo] at hm
      rcases List.mem_cons.mp hm with rfl | hm
      · exact make_valid _ _ _ _ _
      · exact ih (i + 1) _ m hm

theorem rwChromGo_valid (stepO velO : ℕ → ℤ) (sb nl : ℚ) :
    ∀ (rem i : ℕ) (cur : ℤ),
      ∀ m ∈ rwChromGo stepO velO sb nl rem i cur, m.Valid := by
  intro rem
  induction rem with
  | zero =>
      intro i cur m hm
      simp [rwChromGo] at hm
  | succ r ih =>
      intro i cur m hm
      rw [rwChromGo] at hm
      rcases List.mem_cons.mp hm with rfl | hm
      · exact make_valid _ _ _ _ _
      · exact ih (i + 1) _ m hm

theorem arpLoop_valid (seq : List ℤ) (velO : ℕ → ℤ) (stop nl : ℚ) :
    ∀ (fuel : ℕ) (current : ℚ) (idx : ℕ) (acc res : List MidiNote),
      (∀ a ∈ acc, a.Valid) →
      arpLoopFuel seq velO stop nl fuel current idx acc = some res →
      ∀ m ∈ res, m.Valid := by
  intro fuel
  induction fuel with
  | zero =>
      intro current idx acc res hacc hrun m hm
      rw [arpLoopFuel] at hrun
      by_cases h : current < stop
      · rw [if_pos h] at hrun
        exact absurd hrun (by simp)
      · rw [if_neg h] at hrun
        obtain rfl := Option.some.inj hrun
        exact hacc m (by rwa [List.mem_reverse] at hm)
  | succ f ih =>
      intro current idx acc res hacc hrun m hm
      rw [arpLoopFuel] at hrun
      by_cases h : current < stop
      · rw [if_pos h] at hrun
        dsimp only at hrun
        refine ih _ _ _ res ?_ hrun m hm
        intro a ha
        rcases List.mem_cons.mp ha with rfl | ha
        · exact make_valid _ _ _ _ _
        · exact hacc a ha
      · rw [if_neg h] at hrun
        obtain rfl := Option.some.inj hrun
        exact hacc m (by rwa [List.mem_reverse] at hm)

theorem c4_aux : ∀ n : Fin 128,
    to_midi (from_midi ((n.val : ℕ) : ℤ) false) 4 = some ((n.val : ℕ) : ℤ) := by
  decide

/-! ### Claim theorems -/

/-- C3 counterexample: the claim says membership is tested against the
interval-set members reduced mod 12.  For `Chord.MAJOR_9` the member 14
reduces to 2, and pitch 62 over root 60 has `(62-60) % 12 = 2 = 14 % 12`,
so the claim predicts `true`; the code compares `2` against the unreduced
members `[0,4,7,11,14]` and returns `false`. -/
theorem is_in_scale_mod12_counterexample :
    Scale.is_in_scale 62 60 Chord.MAJOR_9 = false ∧
    (14 : ℤ) ∈ Chord.MAJOR_9 ∧ ((62 : ℤ) - 60) % 12 = 14 % 12 := by
  decide

/-- C3 (amended): `is_in_scale(pitch, root, s)` is true iff
`(pitch - root) mod 12` is a member of `s` as listed, without reducing the
members mod 12; for interval sets whose members all lie in [0, 12) — every
scale-catalog entry — this coincides with the claim's reading. -/
theorem is_in_scale_amended :
    (∀ (note root : ℤ) (scale : List ℤ),
      Scale.is_in_scale note root scale = true ↔ (note - root) % 12 ∈ scale) ∧
    (∀ (note root : ℤ) (scale : List ℤ), (∀ m ∈ scale, 0 ≤ m ∧ m < 12) →
      (Scale.is_in_scale note root scale = true ↔
        ∃ m ∈ scale, (note - root) % 12 = m % 12)) := by
  have base : ∀ (note root : ℤ) (scale : List ℤ),
      Scale.is_in_scale note root scale = true ↔ (note - root) % 12 ∈ scale := by
    intro note root scale
    simp [Scale.is_in_scale, List.contains]
  refine ⟨base, ?_⟩
  intro note root scale hsmall
  rw [base]
  constructor
  · intro hmem
    exact ⟨(note - root) % 12, hmem,
      (Int.emod_emod_of_dvd _ dvd_rfl).symm⟩
  · rintro ⟨m, hm, hemod⟩
    have hb := hsmall m hm
    rw [Int.emod_eq_of_lt hb.1 hb.2] at hemod
    rw [hemod]
    exact hm

/-- C3 witness for the amended theorem: instantiating the scale-catalog
part at pitch 64, root 60, and the MAJOR scale. -/
theorem is_in_scale_amended_witness :
    Scale.is_in_scale 64 60 Scale.MAJOR = true ↔
      ∃ m ∈ Scale.MAJOR, ((64 : ℤ) - 60) % 12 = m % 12 :=
  is_in_scale_amended.2 64 60 Scale.MAJOR (by decide)

/-- C4: for every pitch p in [0,127], rendering p with sharp spelling and
parsing the result back yields p. -/
theorem note_codec_roundtrip (p : ℤ) (h0 : 0 ≤ p) (h1 : p ≤ 127) :
    to_midi (from_midi p false) 4 = some p := by
  have hn : p.toNat < 128 := by omega
  have h := c4_aux ⟨p.toNat, hn⟩
  simpa [Int.toNat_of_nonneg h0] using h

/-- C4 witness: the round trip at pitch 58 (rendered "A#3"). -/
theorem note_codec_roundtrip_witness :
    to_midi (from_midi 58 false) 4 = some 58 :=
  note_codec_roundtrip 58 (by decide) (by decide)

/-- C6: `get_inversion` is the `k mod len` fold of the "add 12 to the first
element, then rotate it to the end" operation over the in-range chord
notes, and the two documented examples hold. -/
theorem get_inversion_rotates (root : ℤ) (t : List ℤ) (k : ℤ)
    (_h : Chord.get_notes root t ≠ []) :
    Chord.get_inversion root t k =
      specRotateRaise^[(k % ((Chord.get_notes root t).length : ℤ)).toNat]
        (Chord.get_notes root t) ∧
    Chord.get_inversion 60 Chord.MAJOR 1 = [64, 67, 72] ∧
    Chord.get_inversion 60 Chord.MAJOR 2 = [67, 72, 76] := by
  refine ⟨?_, by decide, by decide⟩
  unfold Chord.get_inversion
  exact invLoop_eq_iterate _ _

/-- C6 witness: the characterization instantiated at root 60, C major,
inversion 1. -/
theorem get_inversion_rotates_witness :
    Chord.get_inversion 60 Chord.MAJOR 1 =
      specRotateRaise^[((1 : ℤ) % ((Chord.get_notes 60 Chord.MAJOR).length : ℤ)).toNat]
        (Chord.get_notes 60 Chord.MAJOR) :=
  (get_inversion_rotates 60 Chord.MAJOR 1 (by decide)).1

/-- C1 counterexample: with the second note starting 1/200 = 0.005 after
the first, the truncated duration 0.005 is at or below the 0.01 epsilon;
the claim says the previous kept note is then dropped entirely from the
output, but the code leaves it in the output unchanged, at its full
duration 1, alongside the current note. -/
theorem remove_overlaps_truncate_counterexample :
    remove_overlaps
      [MidiNote.make 60 0 1 100 1, MidiNote.make 60 (1/200) 1 100 1] "truncate" =
      [MidiNote.make 60 0 1 100 1, MidiNote.make 60 (1/200) 1 100 1] ∧
    ((1 : ℚ)/200 - 0 ≤ 1/100) := by
  constructor
  · norm_num [remove_overlaps, sortStable, insertStable, keyLt, startLt,
      dedupFirst, groupWalk, MidiNote.make, MidiNote.end_beat]
  · norm_num

/-- C1 (amended): in "truncate" mode, within each identical-pitch group
sorted by start, each note is compared to the previous kept note; when
`current.start ≥ previous.end` the current note is kept unchanged;
otherwise, when `current.start - previous.start` exceeds the 0.01 epsilon
the previous kept note's duration is shortened to that difference, and
when it is at or below the epsilon the previous kept note is left in the
output unchanged (not dropped); in every branch the current note is kept.
In particular the documented example yields first-note length 0.5 and an
unchanged second note. -/
theorem remove_overlaps_truncate_spec :
    (∀ notes : List MidiNote,
      remove_overlaps notes "truncate" = spec_remove_truncate notes) ∧
    remove_overlaps
      [MidiNote.make 60 0 1 100 1, MidiNote.make 60 (1/2) 1 100 1] "truncate" =
      [MidiNote.make 60 0 (1/2) 100 1, MidiNote.make 60 (1/2) 1 100 1] := by
  constructor
  · intro notes
    by_cases h : notes = []
    · subst h
      simp [remove_overlaps, spec_remove_truncate, sortStable, dedupFirst]
    · rw [remove_overlaps, if_neg h]
      unfold spec_remove_truncate
      simp only [groupWalk_trunc_eq_specTrunc]
  · norm_num [remove_overlaps, sortStable, insertStable, keyLt, startLt,
      dedupFirst, groupWalk, MidiNote.make, MidiNote.end_beat]
    intro hcontra
    exact absurd hcontra (by simp)

/-- C9: quantizing twice equals quantizing once, for start-only
quantization and for quantization with the duration flag, for every
resolution r > 0.  The duration hypothesis records the 0.01 duration floor
that the note constructor guarantees for every note the SDK can build. -/
theorem quantize_idempotent (notes : List MidiNote) (r : ℚ) (ql : Bool)
    (hr : 0 < r) (hlen : ∀ n ∈ notes, 1/100 ≤ n.length_beats) :
    quantize_notes (quantize_notes notes r ql) r ql =
      quantize_notes notes r ql := by
  unfold quantize_notes
  rw [List.map_map]
  apply List.map_congr_left
  intro n hn
  have hL := hlen n hn
  simp only [Function.comp_apply]
  cases ql with
  | false =>
      simp only [Bool.false_eq_true, if_false, MidiNote.make, MidiNote.mk.injEq]
      refine ⟨by omega, quantize_start_idem _ _ hr, ?_, by omega, by omega⟩
      rw [← max_assoc, max_self]
  | true =>
      simp only [if_true, MidiNote.make, MidiNote.mk.injEq]
      refine ⟨by omega, quantize_start_idem _ _ hr, ?_, by omega, by omega⟩
      exact quantize_len_idem _ _ hr hL

/-- C9 witness: idempotence at a concrete note, both with and without the
duration flag. -/
theorem quantize_idempotent_witness :
    (quantize_notes (quantize_notes [MidiNote.make 60 (137/100) 1 100 1]
        (1/4) true) (1/4) true =
      quantize_notes [MidiNote.make 60 (137/100) 1 100 1] (1/4) true) ∧
    (quantize_notes (quantize_notes [MidiNote.make 60 (137/100) 1 100 1]
        (1/4) false) (1/4) false =
      quantize_notes [MidiNote.make 60 (137/100) 1 100 1] (1/4) false) :=
  ⟨quantize_idempotent [MidiNote.make 60 (137/100) 1 100 1] (1/4) true
      (by norm_num)
      (by
        intro n hn
        rw [List.mem_singleton] at hn
        subst hn
        norm_num [MidiNote.make]),
   quantize_idempotent [MidiNote.make 60 (137/100) 1 100 1] (1/4) false
      (by norm_num)
      (by
        intro n hn
        rw [List.mem_singleton] at hn
        subst hn
        norm_num [MidiNote.make])⟩

/-- C10 counterexample: the claim says `to_midi` never raises and returns
60 whenever the first character is not a letter A-G.  On the sole-space
string the code strips to an empty string and then indexes it, raising
`IndexError` (modelled as `none`); and on " A4" the first character is a
space, yet after stripping the code parses the name and returns 69, not
the claimed default 60. -/
theorem to_midi_fails_closed_counterexample :
    to_midi [' '] 4 = none ∧ to_midi [' ', 'A', '4'] 4 = some 69 := by
  decide

/-- C10 (amended): `to_midi` raises (`none`) exactly when the input is
non-empty but strips to empty; every returned pitch lies in [0,127]; the
empty string returns the default 60; and whenever the first character
after stripping is not a letter A-G (case-insensitive) it returns 60. -/
theorem to_midi_fails_closed (s : List Char) (d : ℤ) :
    (to_midi s d = none ↔ (s ≠ [] ∧ pyStrip s = [])) ∧
    (∀ p : ℤ, to_midi s d = some p → 0 ≤ p ∧ p ≤ 127) ∧
    (s = [] → to_midi s d = some 60) ∧
    (∀ c rest, pyStrip s = c :: rest → NOTE_TO_PC c.toUpper = none →
      to_midi s d = some 60) := by
  by_cases hs : s = []
  · subst hs
    refine ⟨?_, ?_, ?_, ?_⟩
    · simp [to_midi]
    · intro p hp
      rw [to_midi, if_pos rfl] at hp
      obtain rfl : (60 : ℤ) = p := Option.some.inj hp
      norm_num
    · intro _
      rw [to_midi, if_pos rfl]
    · intro c rest hstrip
      simp [pyStrip] at hstrip
  · rw [to_midi, if_neg hs]
    cases hstrip : pyStrip s with
    | nil =>
        refine ⟨?_, ?_, ?_, ?_⟩
        · simp [hs]
        · intro p hp
          simp at hp
        · intro h
          exact absurd h hs
        · intro c rest hcons
          simp at hcons
    | cons c0 rest0 =>
        dsimp only
        cases hpc : NOTE_TO_PC c0.toUpper with
        | none =>
            dsimp only
            refine ⟨?_, ?_, ?_, ?_⟩
            · simp [hstrip]
            · intro p hp
              obtain rfl : (60 : ℤ) = p := Option.some.inj hp
              norm_num
            · intro h
              exact absurd h hs
            · intro c rest hcons _
              rfl
        | some pc =>
            dsimp only
            refine ⟨?_, ?_, ?_, ?_⟩
            · simp [hstrip]
            · intro p hp
              obtain rfl := Option.some.inj hp
              constructor
              · exact le_max_left 0 _
              · exact max_le (by norm_num) (min_le_left _ _)
            · intro h
              exact absurd h hs
            · intro c rest hcons hnone
              obtain ⟨rfl, rfl⟩ : c0 = c ∧ rest0 = rest :=
                ⟨(List.cons.inj hcons).1, (List.cons.inj hcons).2⟩
              rw [hpc] at hnone
              exact absurd hnone (by simp)

/-- C10 witness for the amended theorem: an unrecognized letter returns the
default pitch 60. -/
theorem to_midi_fails_closed_witness :
    to_midi ['Q', '4'] 4 = some 60 :=
  (to_midi_fails_closed ['Q', '4'] 4).2.2.2 'Q' ['4'] (by decide) (by decide)

/-- C8 counterexample: with `note_length = 0`, a non-empty chord and a
positive window, the arpeggiator's `while` loop never advances
`current_beat`, so no amount of fuel completes it — the loop diverges,
refuting "terminates for every note_length". -/
theorem arpeggiate_terminates_counterexample :
    ¬ ∃ fuel : ℕ,
      arpeggiateFuel [60] "up" 0 1 0 (fun _ => 100) (fun l => l) fuel ≠ none := by
  rintro ⟨fuel, hne⟩
  apply hne
  rw [arpeggiateFuel, if_neg (by simp)]
  exact arpLoop_stuck _ _ _ fuel 0 0 [] (by norm_num)

/-- C8 (amended): every core operation terminates; `arpeggiate` in
particular terminates for every chord list, pattern, start and total
duration whenever `note_length > 0` (with `note_length ≤ 0`, a positive
remaining window and a non-empty chord, its loop diverges — see the
counterexample).  Termination is witnessed by a sufficient fuel bound of
`⌈total_beats / note_length⌉` iterations. -/
theorem arpeggiate_terminates (chord_notes : List ℤ) (pattern : String)
    (start_beat total_beats note_length : ℚ) (velO : ℕ → ℤ)
    (shuffle : List ℤ → List ℤ) (hnl : 0 < note_length) :
    ∃ (fuel : ℕ) (res : List MidiNote),
      arpeggiateFuel chord_notes pattern start_beat total_beats note_length
        velO shuffle fuel = some res := by
  by_cases hc : chord_notes = []
  · exact ⟨0, [], by rw [arpeggiateFuel, if_pos hc]⟩
  · obtain ⟨k, hk⟩ : ∃ k : ℕ, total_beats ≤ (k : ℚ) * note_length := by
      refine ⟨(⌈total_beats / note_length⌉).toNat, ?_⟩
      have h1 : total_beats / note_length ≤ (⌈total_beats / note_length⌉ : ℚ) :=
        Int.le_ceil _
      have h2 : ((⌈total_beats / note_length⌉ : ℤ) : ℚ) ≤
          ((⌈total_beats / note_length⌉.toNat : ℕ) : ℚ) := by
        exact_mod_cast Int.self_le_toNat _
      have h3 := le_trans h1 h2
      calc total_beats = (total_beats / note_length) * note_length := by
            field_simp
        _ ≤ ((⌈total_beats / note_length⌉.toNat : ℕ) : ℚ) * note_length := by
            nlinarith
    obtain ⟨res, hres⟩ := arpLoop_term (buildSequence chord_notes pattern shuffle)
      velO (start_beat + total_beats) note_length hnl k start_beat 0 []
      (by linarith)
    exact ⟨k, res, by rw [arpeggiateFuel, if_neg hc]; exact hres⟩

/-- C8 witness: the arpeggiator terminates on a C major chord over four
beats of sixteenth notes. -/
theorem arpeggiate_terminates_witness :
    ∃ (fuel : ℕ) (res : List MidiNote),
      arpeggiateFuel [60, 64, 67] "up" 0 4 (1/4) (fun _ => 80) (fun l => l)
        fuel = some res :=
  arpeggiate_terminates [60, 64, 67] "up" 0 4 (1/4) (fun _ => 80)
    (fun l => l) (by norm_num)

/-- C7 counterexample: with `total_beats = 1.001` and `note_length = 1`,
the final iteration's clipped duration `0.9 * 0.001` lies below the 0.01
note-duration floor, so the constructed note gets duration 0.01 and its
end 1.01 extends past `start_beat + total_beats = 1.001`, refuting "no
note's end position extends past start_beat + T". -/
theorem arpeggiate_window_counterexample :
    arpeggiateFuel [60] "up" 0 (1001/1000) 1 (fun _ => 100) (fun l => l) 3 =
      some [MidiNote.make 60 0 (9/10) 110 1, MidiNote.make 60 1 (9/10000) 110 1] ∧
    (0 : ℚ) + 1001/1000 < (MidiNote.make 60 1 (9/10000) 110 1).end_beat := by
  constructor
  · norm_num [arpeggiateFuel, arpLoopFuel, buildSequence, MidiNote.make]
  · norm_num [MidiNote.make, MidiNote.end_beat]

/-- C7 (amended): for every non-empty chord, start_beat ≥ 0,
note_length > 0 and total_beats T > 0, any completed run of `arpeggiate`
with pattern "up" yields notes with non-decreasing start positions lying
in `[start_beat, start_beat + T)`; each note's duration is clipped toward
the remaining window, but the 0.01 minimum duration may override the
clip, so a note's end is only guaranteed below `start_beat + T + 0.01`. -/
theorem arpeggiate_window (chord_notes : List ℤ)
    (start_beat total_beats note_length : ℚ) (velO : ℕ → ℤ)
    (shuffle : List ℤ → List ℤ) (fuel : ℕ) (res : List MidiNote)
    (hc : chord_notes ≠ []) (hstart : 0 ≤ start_beat)
    (hnl : 0 < note_length) (_hT : 0 < total_beats)
    (hrun : arpeggiateFuel chord_notes "up" start_beat total_beats note_length
      velO shuffle fuel = some res) :
    res.Chain' (fun a b => a.start_beat ≤ b.start_beat) ∧
    ∀ m ∈ res, start_beat ≤ m.start_beat ∧
      m.start_beat < start_beat + total_beats ∧
      m.end_beat < start_beat + total_beats + 1/100 := by
  rw [arpeggiateFuel, if_neg hc] at hrun
  exact arpLoop_window (buildSequence chord_notes "up" shuffle) velO
    (start_beat + total_beats) note_length start_beat hstart hnl fuel
    start_beat 0 [] res (le_refl _) (by simp) List.chain'_nil hrun

/-- C7 witness: the window property at a C major chord arpeggiated over
one beat in sixteenth notes, checked on the first produced note. -/
theorem arpeggiate_window_witness :
    List.Chain' (fun a b => a.start_beat ≤ b.start_beat)
      [MidiNote.make 60 0 (9/40) 90 1, MidiNote.make 64 (1/4) (9/40) 80 1,
       MidiNote.make 67 (1/2) (9/40) 80 1, MidiNote.make 60 (3/4) (9/40) 90 1] ∧
    ((0 : ℚ) ≤ (MidiNote.make 60 0 (9/40) 90 1).start_beat ∧
      (MidiNote.make 60 0 (9/40) 90 1).start_beat < 0 + 1 ∧
      (MidiNote.make 60 0 (9/40) 90 1).end_beat < 0 + 1 + 1/100) := by
  have hseq : buildSequence [60, 64, 67] "up" (fun l => l) = [60, 64, 67] := by
    decide
  have h := arpeggiate_window [60, 64, 67] 0 1 (1/4) (fun _ => 80)
    (fun l => l) 5
    [MidiNote.make 60 0 (9/40) 90 1, MidiNote.make 64 (1/4) (9/40) 80 1,
     MidiNote.make 67 (1/2) (9/40) 80 1, MidiNote.make 60 (3/4) (9/40) 90 1]
    (by simp) (by norm_num) (by norm_num) (by norm_num)
    (by
      rw [arpeggiateFuel, if_neg (by simp), hseq]
      norm_num [arpLoopFuel, MidiNote.make])
  exact ⟨h.1, h.2 (MidiNote.make 60 0 (9/40) 90 1) (by simp)⟩

/-- C5: the note-event invariant (pitch in [0,127], start ≥ 0, duration
> 0, velocity in [1,127], channel in [1,16]) holds at construction — any
numeric input is clamped into range, never rejected, the constructor being
total — and for every note returned by transpose, shift, quantize,
humanize, remove_overlaps, random_walk and arpeggiate (the latter two over
arbitrary random-draw oracles; remove_overlaps passes input notes through,
so its inputs are assumed constructor-built). -/
theorem note_event_invariant :
    (∀ (nn : ℤ) (sb lb : ℚ) (v c : ℤ), (MidiNote.make nn sb lb v c).Valid) ∧
    (∀ (n : MidiNote) (s : ℤ), (n.transpose s).Valid) ∧
    (∀ (n : MidiNote) (b : ℚ), (n.shift b).Valid) ∧
    (∀ (notes : List MidiNote) (r : ℚ) (ql : Bool),
      ∀ m ∈ quantize_notes notes r ql, m.Valid) ∧
    (∀ (notes : List MidiNote) (toff : ℕ → ℚ) (voff : ℕ → ℤ) (loff : ℕ → ℚ),
      ∀ m ∈ humanize notes toff voff loff, m.Valid) ∧
    (∀ (notes : List MidiNote) (mode : String), (∀ n ∈ notes, n.Valid) →
      ∀ m ∈ remove_overlaps notes mode, m.Valid) ∧
    (∀ (stepO velO : ℕ → ℤ) (start_note : ℤ) (num : ℕ) (scale : List ℤ)
      (root : ℤ) (sb nl : ℚ),
      ∀ m ∈ random_walk stepO velO start_note num scale root sb nl, m.Valid) ∧
    (∀ (chord : List ℤ) (pattern : String) (sb T nl : ℚ) (velO : ℕ → ℤ)
      (shuffle : List ℤ → List ℤ) (fuel : ℕ) (res : List MidiNote),
      arpeggiateFuel chord pattern sb T nl velO shuffle fuel = some res →
      ∀ m ∈ res, m.Valid) := by
  refine ⟨fun nn sb lb v c => make_valid nn sb lb v c, ?_, ?_, ?_, ?_, ?_, ?_, ?_⟩
  · intro n s
    exact make_valid _ _ _ _ _
  · intro n b
    exact make_valid _ _ _ _ _
  · intro notes r ql m hm
    unfold quantize_notes at hm
    obtain ⟨n, _, rfl⟩ := List.mem_map.mp hm
    exact make_valid _ _ _ _ _
  · intro notes toff voff loff m hm
    exact humanizeGo_valid toff voff loff notes 0 m hm
  · intro notes mode hvalid m hm
    simp only [remove_overlaps] at hm
    by_cases h : notes = []
    · rw [if_pos h] at hm
      simp at hm
    · rw [if_neg h] at hm
      rw [mem_sortStable] at hm
      obtain ⟨k, _, hmk⟩ := List.mem_flatMap.mp hm
      refine groupWalk_valid mode _ [] (by simp) ?_ m hmk
      intro a ha
      have ha2 : a ∈ sortStable keyLt notes := List.mem_of_mem_filter ha
      rw [mem_sortStable] at ha2
      exact hvalid a ha2
  · intro stepO velO start_note num scale root sb nl m hm
    simp only [random_walk] at hm
    by_cases h : scale = []
    · rw [if_pos h] at hm
      exact rwChromGo_valid stepO velO sb nl num 0 start_note m hm
    · rw [if_neg h] at hm
      exact rwScaleGo_valid _ stepO velO sb nl num 0 _ m hm
  · intro chord pattern sb T nl velO shuffle fuel res hrun m hm
    rw [arpeggiateFuel] at hrun
    by_cases h : chord = []
    · rw [if_pos h] at hrun
      obtain rfl := Option.some.inj hrun
      simp at hm
    · rw [if_neg h] at hrun
      exact arpLoop_valid _ velO _ nl fuel sb 0 [] res (by simp) hrun m hm

/-- C5 witness: the invariant via the remove_overlaps clause at a concrete
singleton list, discharging its validity hypothesis. -/
theorem note_event_invariant_witness :
    MidiNote.Valid (MidiNote.make 60 0 1 100 1) := by
  have hro : remove_overlaps [MidiNote.make 60 0 1 100 1] "truncate" =
      [MidiNote.make 60 0 1 100 1] := by
    norm_num [remove_overlaps, sortStable, insertStable, keyLt, startLt,
      dedupFirst, groupWalk, MidiNote.make]
  refine note_event_invariant.2.2.2.2.2.1 [MidiNote.make 60 0 1 100 1]
    "truncate" ?_ (MidiNote.make 60 0 1 100 1) ?_
  · intro n hn
    rw [List.mem_singleton] at hn
    subst hn
    exact make_valid 60 0 1 100 1
  · rw [hro]
    simp

/-- C2: with an empty previous chord `voice_lead` returns the plain chord
notes; otherwise it returns the candidate inversion of least movement cost
over inversion indices `0..len(to_type)-1`, ties resolved to the lowest
index (the non-degenerate case assumes at least one in-range chord note,
without which the Python code raises `ZeroDivisionError`). -/
theorem voice_lead_minimizes (from_chord : List ℤ) (to_root : ℤ) (to_type : List ℤ)
    (ht : to_type ≠ []) :
    (from_chord = [] →
      Chord.voice_lead from_chord to_root to_type = Chord.get_notes to_root to_type) ∧
    (from_chord ≠ [] → Chord.get_notes to_root to_type ≠ [] →
      ∃ i : ℕ, i < to_type.length ∧
        Chord.voice_lead from_chord to_root to_type =
          Chord.get_inversion to_root to_type (i : ℤ) ∧
        (∀ j : ℕ, j < to_type.length →
          Chord.movement (Chord.get_inversion to_root to_type (i : ℤ)) from_chord ≤
          Chord.movement (Chord.get_inversion to_root to_type (j : ℤ)) from_chord) ∧
        (∀ j : ℕ, j < i →
          Chord.movement (Chord.get_inversion to_root to_type (i : ℤ)) from_chord <
          Chord.movement (Chord.get_inversion to_root to_type (j : ℤ)) from_chord)) := by
  constructor
  · intro h
    simp [Chord.voice_lead, h]
  · intro hfc hnotes
    obtain ⟨i, hi, heq, hle, hlt⟩ :=
      vlFold_argmin from_chord to_root to_type to_type.length
        (List.length_pos.mpr ht)
    refine ⟨i, hi, ?_, hle, hlt⟩
    have hcand : Chord.get_inversion to_root to_type (i : ℤ) ≠ [] := by
      have hlen := get_inversion_length to_root to_type (i : ℤ)
      intro hnil
      rw [hnil] at hlen
      exact hnotes (List.length_eq_zero.mp hlen.symm)
    rw [Chord.voice_lead, if_neg hfc, heq]
    simp [hcand]

/-- C2 witness: both branches at concrete chords — an empty previous chord
with target C major, and previous chord C major moving to F major. -/
theorem voice_lead_minimizes_witness :
    (Chord.voice_lead [] 60 Chord.MAJOR = Chord.get_notes 60 Chord.MAJOR) ∧
    (∃ i : ℕ, i < Chord.MAJOR.length ∧
      Chord.voice_lead [60, 64, 67] 65 Chord.MAJOR =
        Chord.get_inversion 65 Chord.MAJOR (i : ℤ) ∧
      (∀ j : ℕ, j < Chord.MAJOR.length →
        Chord.movement (Chord.get_inversion 65 Chord.MAJOR (i : ℤ)) [60, 64, 67] ≤
        Chord.movement (Chord.get_inversion 65 Chord.MAJOR (j : ℤ)) [60, 64, 67]) ∧
      (∀ j : ℕ, j < i →
        Chord.movement (Chord.get_inversion 65 Chord.MAJOR (i : ℤ)) [60, 64, 67] <
        Chord.movement (Chord.get_inversion 65 Chord.MAJOR (j : ℤ)) [60, 64, 67])) :=
  ⟨(voice_lead_minimizes [] 60 Chord.MAJOR (by decide)).1 rfl,
   (voice_lead_minimizes [60, 64, 67] 65 Chord.MAJOR (by decide)).2
     (by decide) (by decide)⟩

end AuroraMelody
